import Mathlib

/-!
Verification of the `act-logically` Datalog engine.

The data model is embedded from `datalog-syntax/src/lib.rs`, the runtime facade
from `src/engine/datalog.rs`, the fixpoint driver from
`src/evaluation/semi_naive.rs`, and the head-safety check from
`datalog_rule_macro/src/lib.rs`.  The relation storage, query pattern matcher,
dependency-graph stratifier, delta-program transform and join engine are
referenced by those files but their sources (`engine/storage.rs`,
`evaluation/query.rs`, `helpers/helpers.rs`,
`program_transformations/delta_program.rs`,
`program_transformations/dependency_graph.rs`) are not part of the repository
snapshot; they are modelled from the specification, as flagged on each
definition.

Machine integers (`usize`) are embedded as `Nat`; the one subtraction site in
`semi_naive_evaluation` is shown to never underflow.  The unbounded fixpoint
loop is embedded with explicit fuel, returning `Option`.
-/

namespace ActLogically

open Batteries (OrientedCmp TransCmp)

/-- Embeds `TypedValue` from `datalog-syntax/src/lib.rs`: a closed variant over
string, unsigned integer (`usize`, embedded as `Nat`) and boolean. -/
inductive TypedValue where
  | Str : String → TypedValue
  | Int : Nat → TypedValue
  | Bool : Bool → TypedValue
deriving DecidableEq, Repr

/-- Embeds `SkolemFunction`.  The Rust `func` field is a raw function pointer
(`fn(HashMap<&str, &TypedValue>) -> TypedValue`); pointers are compared by
address by the derived `Ord`, which we embed as an opaque numeric identifier.
The callable itself is supplied separately as a `SkolemInterp`. -/
structure SkolemFunction where
  func : Nat
  deps : List String
deriving DecidableEq, Repr

/-- Embeds `Term`: a variable, a constant, or a Skolemizer function term. -/
inductive Term where
  | Variable : String → Term
  | Constant : TypedValue → Term
  | Skolemizer : SkolemFunction → Term
deriving DecidableEq, Repr

/-- Embeds `AnonymousGroundAtom = Vec<TypedValue>`: the canonical fact. -/
abbrev AnonymousGroundAtom := List TypedValue

/-- Embeds `Atom`: an ordered sequence of terms plus a relation symbol.
Field order (terms, then symbol) matches the Rust declaration, which fixes
the derived lexicographic `Ord`. -/
structure Atom where
  terms : List Term
  symbol : String
deriving DecidableEq, Repr

/-- Embeds `Rule`: head atom, body atoms, and a stable id. -/
structure Rule where
  head : Atom
  body : List Atom
  id : Nat
deriving DecidableEq, Repr

/-- Embeds `Program`: a vector of rules. -/
structure Program where
  inner : List Rule
deriving DecidableEq, Repr

/-! ### The derived `Ord` of the Rust types, as executable comparators.

Rust's `#[derive(Ord)]` compares enums by variant order first, then contents,
and structs field-by-field in declaration order; `Vec` and `String` compare
lexicographically with a shorter prefix ordered first.  We embed this as
`Ordering`-valued comparators (Mathlib's `String`/`List` order instances do not
reduce in the kernel, so executable comparators are defined directly). -/

/-- Comparator on `Nat` (embeds `usize` ordering). -/
def cmpNat (a b : Nat) : Ordering := compare a b

/-- Comparator on `Bool` (Rust: `false < true`). -/
def cmpBool : Bool → Bool → Ordering
  | false, false => .eq
  | false, true => .lt
  | true, false => .gt
  | true, true => .eq

/-- Lexicographic comparator on lists (embeds `Vec`'s derived `Ord`):
element-wise, with a strict prefix ordered first. -/
def cmpList (cmp : α → α → Ordering) : List α → List α → Ordering
  | [], [] => .eq
  | [], _ :: _ => .lt
  | _ :: _, [] => .gt
  | a :: as, b :: bs => (cmp a b).then (cmpList cmp as bs)

/-- Comparator precomposed with a projection. -/
def cmpOn (cmp : β → β → Ordering) (f : α → β) (a b : α) : Ordering :=
  cmp (f a) (f b)

/-- Comparator on `Char` by code point (embeds Rust `char` ordering). -/
def cmpChar : Char → Char → Ordering :=
  cmpOn cmpNat Char.toNat

/-- Comparator on `String` by its character list (embeds Rust `String`
ordering; byte-wise and codepoint-wise lexicographic order agree on the
relation and variable names used here). -/
def cmpString : String → String → Ordering :=
  cmpOn (cmpList cmpChar) String.data

/-- Comparator embedding the derived `Ord` of `TypedValue`
(`Str < Int < Bool` by variant order). -/
def cmpTypedValue : TypedValue → TypedValue → Ordering
  | .Str a, .Str b => cmpString a b
  | .Str _, .Int _ => .lt
  | .Str _, .Bool _ => .lt
  | .Int _, .Str _ => .gt
  | .Int a, .Int b => cmpNat a b
  | .Int _, .Bool _ => .lt
  | .Bool _, .Str _ => .gt
  | .Bool _, .Int _ => .gt
  | .Bool a, .Bool b => cmpBool a b

/-- Comparator embedding the derived `Ord` of `SkolemFunction`
(field order: `func`, then `deps`). -/
def cmpSkolemFunction : SkolemFunction → SkolemFunction → Ordering :=
  compareLex (cmpOn cmpNat SkolemFunction.func)
    (cmpOn (cmpList cmpString) SkolemFunction.deps)

/-- Comparator embedding the derived `Ord` of `Term`
(`Variable < Constant < Skolemizer` by variant order). -/
def cmpTerm : Term → Term → Ordering
  | .Variable a, .Variable b => cmpString a b
  | .Variable _, .Constant _ => .lt
  | .Variable _, .Skolemizer _ => .lt
  | .Constant _, .Variable _ => .gt
  | .Constant a, .Constant b => cmpTypedValue a b
  | .Constant _, .Skolemizer _ => .lt
  | .Skolemizer _, .Variable _ => .gt
  | .Skolemizer _, .Constant _ => .gt
  | .Skolemizer a, .Skolemizer b => cmpSkolemFunction a b

/-- Comparator embedding the derived `Ord` of `Atom`
(field order: `terms`, then `symbol`). -/
def cmpAtom : Atom → Atom → Ordering :=
  compareLex (cmpOn (cmpList cmpTerm) Atom.terms) (cmpOn cmpString Atom.symbol)

/-- Comparator embedding the derived `Ord` of `Rule`
(field order: `head`, then `body`, then `id`). -/
def cmpRule : Rule → Rule → Ordering :=
  compareLex (cmpOn cmpAtom Rule.head)
    (compareLex (cmpOn (cmpList cmpAtom) Rule.body) (cmpOn cmpNat Rule.id))

instance : OrientedCmp cmpNat :=
  inferInstanceAs (OrientedCmp compare)

instance : TransCmp cmpNat :=
  inferInstanceAs (TransCmp compare)

instance : OrientedCmp cmpBool := ⟨by decide⟩

instance : TransCmp cmpBool where
  le_trans := by decide

instance {α : Type u} {β : Type v} (cmp : β → β → Ordering) (f : α → β)
    [OrientedCmp cmp] : OrientedCmp (cmpOn cmp f) :=
  ⟨fun a b => @OrientedCmp.symm _ cmp _ (f a) (f b)⟩

instance {α : Type u} {β : Type v} (cmp : β → β → Ordering) (f : α → β)
    [TransCmp cmp] : TransCmp (cmpOn cmp f) where
  le_trans {x y z} h1 h2 := @TransCmp.le_trans _ cmp _ (f x) (f y) (f z) h1 h2

instance : OrientedCmp cmpChar :=
  inferInstanceAs (OrientedCmp (cmpOn cmpNat Char.toNat))

instance : TransCmp cmpChar :=
  inferInstanceAs (TransCmp (cmpOn cmpNat Char.toNat))

instance {α : Type u} (cmp : α → α → Ordering) [OrientedCmp cmp] :
    OrientedCmp (cmpList cmp) where
  symm l1 l2 := by
    induction l1 generalizing l2 with
    | nil => cases l2 <;> rfl
    | cons a as ih =>
      cases l2 with
      | nil => rfl
      | cons b bs =>
        simp only [cmpList, Ordering.swap_then, ih bs,
          @OrientedCmp.symm _ cmp _ a b]

instance {α : Type u} (cmp : α → α → Ordering) [TransCmp cmp] :
    TransCmp (cmpList cmp) where
  le_trans {l1 l2 l3} h1 h2 := by
    revert h1 h2
    induction l1 generalizing l2 l3 with
    | nil =>
      intro _ _
      cases l3 <;> simp [cmpList]
    | cons a as ih =>
      intro h1 h2
      cases l2 with
      | nil => simp [cmpList] at h1
      | cons b bs =>
        cases l3 with
        | nil => simp [cmpList] at h2
        | cons c cs =>
          simp only [cmpList, ne_eq, Ordering.then_eq_gt, not_or, not_and]
            at h1 h2 ⊢
          refine ⟨TransCmp.le_trans h1.1 h2.1, ?_⟩
          intro hac
          rcases hx : cmp a b with _ | _ | _
          · have h3 := TransCmp.lt_le_trans hx h2.1
            rw [hac] at h3
            exact absurd h3 (by decide)
          · exact ih (h1.2 hx)
              (h2.2 ((TransCmp.cmp_congr_left hx).symm.trans hac))
          · exact absurd hx h1.1

instance : OrientedCmp cmpString :=
  inferInstanceAs (OrientedCmp (cmpOn (cmpList cmpChar) String.data))

instance : TransCmp cmpString :=
  inferInstanceAs (TransCmp (cmpOn (cmpList cmpChar) String.data))

instance : OrientedCmp cmpSkolemFunction :=
  inferInstanceAs (OrientedCmp (compareLex _ _))

instance : TransCmp cmpSkolemFunction :=
  inferInstanceAs (TransCmp (compareLex _ _))

instance : OrientedCmp cmpTypedValue where
  symm x y := by
    cases x <;> cases y <;> simp only [cmpTypedValue] <;>
      first
        | rfl
        | exact OrientedCmp.symm ..

instance : TransCmp cmpTypedValue where
  le_trans {x y z} h1 h2 := by
    cases x <;> cases y <;> cases z <;>
      simp only [cmpTypedValue] at h1 h2 ⊢ <;>
      first
        | exact h1
        | exact h2
        | decide
        | exact absurd rfl h1
        | exact absurd rfl h2
        | exact TransCmp.le_trans h1 h2

instance : OrientedCmp cmpTerm where
  symm x y := by
    cases x <;> cases y <;> simp only [cmpTerm] <;>
      first
        | rfl
        | exact OrientedCmp.symm ..

instance : TransCmp cmpTerm where
  le_trans {x y z} h1 h2 := by
    cases x <;> cases y <;> cases z <;>
      simp only [cmpTerm] at h1 h2 ⊢ <;>
      first
        | exact h1
        | exact h2
        | decide
        | exact absurd rfl h1
        | exact absurd rfl h2
        | exact TransCmp.le_trans h1 h2

instance : OrientedCmp cmpAtom :=
  inferInstanceAs (OrientedCmp (compareLex _ _))

instance : TransCmp cmpAtom :=
  inferInstanceAs (TransCmp (compareLex _ _))

instance : OrientedCmp cmpRule :=
  inferInstanceAs (OrientedCmp (compareLex _ _))

instance : TransCmp cmpRule :=
  inferInstanceAs (TransCmp (compareLex _ _))

/-- The ordering relation on rules induced by the derived `Ord`; this is the
relation `Vec::sort` sorts by in `Program::from`. -/
def ruleLe (a b : Rule) : Prop := cmpRule a b ≠ .gt

instance : DecidableRel ruleLe := fun a b =>
  inferInstanceAs (Decidable (cmpRule a b ≠ .gt))

instance : IsTotal Rule ruleLe where
  total a b := by
    by_cases h : cmpRule a b = .gt
    · exact Or.inr (TransCmp.gt_asymm h)
    · exact Or.inl h

instance : IsTrans Rule ruleLe where
  trans _ _ _ h1 h2 := TransCmp.le_trans h1 h2

/-- Embeds the id-assignment loop of `Program::from`
(`for (id, rule) in val.iter_mut().enumerate() { rule.id = id }`). -/
def assignIds : Nat → List Rule → List Rule
  | _, [] => []
  | n, r :: rs => { r with id := n } :: assignIds (n + 1) rs

/-- Embeds `impl From<Vec<Rule>> for Program` from `datalog-syntax/src/lib.rs`:
sort the vector by the derived order, then assign ids `0..n-1` by position.
(There is no deduplication step in the source.) -/
def Program.fromRules (value : List Rule) : Program :=
  { inner := assignIds 0 (List.insertionSort ruleLe value) }

/-! ### Query model (`datalog-syntax/src/lib.rs`) -/

/-- Embeds `Matcher`: a per-position wildcard or constant. -/
inductive Matcher where
  | Any : Matcher
  | Constant : TypedValue → Matcher
deriving DecidableEq, Repr

/-- Embeds `Query`: matchers plus a target relation symbol. -/
structure Query where
  matchers : List Matcher
  symbol : String
deriving DecidableEq, Repr

/-! ### Relation storage.

`src/engine/storage.rs` is referenced by `src/engine/datalog.rs` but absent
from the repository snapshot; the storage type and its operations are modelled
from spec section 4.1.  A `HashMap<String, HashSet<AnonymousGroundAtom>>` is
embedded as an association list of relation name to duplicate-free fact list
(insertion order fixes the iteration order that a hash map leaves open; the
final fixpoint is order-independent, as spec section 5 notes). -/

/-- Modelled from the spec: the reserved delta-relation name marker
(`DELTA_PREFIX` in `helpers/helpers.rs`, absent from the snapshot); spec 3
requires a reserved marker prepended to the base relation name. -/
def deltaMarker : String := "Δ"

/-- Tests whether a relation name is a delta relation (name begins with the
reserved marker). -/
def isDeltaName (name : String) : Bool := name.data.head? = some 'Δ'

/-- Strips the delta marker from a delta relation name. -/
def stripDeltaName (name : String) : String := String.mk (name.data.drop 1)

/-- Modelled from the spec (4.1): relation storage, a map from relation name
to its set of distinct ground atoms. -/
structure RelationStorage where
  inner : List (String × List AnonymousGroundAtom)
deriving DecidableEq, Repr

/-- Inserts a fact into the named relation entry, rejecting duplicates;
creates the entry if absent (`entry().or_default()`); returns whether the
fact was newly added.  Modelled from spec 4.1 `insert`. -/
def insertEntry : List (String × List AnonymousGroundAtom) → String →
    AnonymousGroundAtom → List (String × List AnonymousGroundAtom) × Bool
  | [], name, fact => ([(name, [fact])], true)
  | (k, v) :: rest, name, fact =>
    if k = name then
      if fact ∈ v then ((k, v) :: rest, false)
      else ((k, v ++ [fact]) :: rest, true)
    else
      let r := insertEntry rest name fact
      ((k, v) :: r.1, r.2)

/-- Modelled from spec 4.1: `insert(relation, fact) -> bool`. -/
def RelationStorage.insert (s : RelationStorage) (relation : String)
    (fact : AnonymousGroundAtom) : RelationStorage × Bool :=
  let r := insertEntry s.inner relation fact
  (⟨r.1⟩, r.2)

/-- Modelled from spec 4.1: `insert_registered(relation, facts)`, the bulk
variant used by `poll` and rule materialization. -/
def RelationStorage.insertRegistered (s : RelationStorage) (relation : String)
    (facts : List AnonymousGroundAtom) : RelationStorage :=
  facts.foldl (fun acc f => (acc.insert relation f).1) s

/-- Looks up a relation entry by name. -/
def lookupRel : List (String × List AnonymousGroundAtom) → String →
    Option (List AnonymousGroundAtom)
  | [], _ => none
  | (k, v) :: rest, name => if k = name then some v else lookupRel rest name

/-- Modelled from spec 4.1: `contains`; an absent relation yields `false`,
not an error. -/
def RelationStorage.contains (s : RelationStorage) (relation : String)
    (fact : AnonymousGroundAtom) : Bool :=
  match lookupRel s.inner relation with
  | some facts => fact ∈ facts
  | none => false

/-- Modelled from spec 4.1: `get_relation`; an unknown name yields the empty
set. -/
def RelationStorage.getRelation (s : RelationStorage) (relation : String) :
    List AnonymousGroundAtom :=
  match lookupRel s.inner relation with
  | some facts => facts
  | none => []

/-- Modelled from spec 4.1: `drain_all_relations` returns all entries and
leaves the storage empty. -/
def RelationStorage.drainAllRelations (s : RelationStorage) :
    List (String × List AnonymousGroundAtom) × RelationStorage :=
  (s.inner, ⟨[]⟩)

/-- Modelled from spec 4.1: `drain_deltas` clears every delta relation's fact
set while preserving base relations. -/
def RelationStorage.drainDeltas (s : RelationStorage) : RelationStorage :=
  ⟨s.inner.map (fun kv => if isDeltaName kv.1 then (kv.1, []) else kv)⟩

/-- The contribution of one storage entry to the non-delta fact count. -/
def entryWeight (kv : String × List AnonymousGroundAtom) : Nat :=
  if isDeltaName kv.1 then 0 else kv.2.length

/-- Modelled from spec 4.1: `len()`, the total fact count across non-delta
relations, used by the fixpoint driver to detect "no new facts". -/
def RelationStorage.len (s : RelationStorage) : Nat :=
  (s.inner.map entryWeight).sum

/-- Modelled from spec 4.7: the unprocessed buffer is "empty" when it holds
no facts (`safe()` must hold on a freshly constructed runtime, whose buffer
has registered but empty entries). -/
def RelationStorage.isEmpty (s : RelationStorage) : Bool :=
  s.inner.all (fun kv => kv.2.isEmpty)

/-! ### Query engine.

`src/evaluation/query.rs` (`pattern_match`) is referenced by
`src/engine/datalog.rs` but absent from the snapshot; modelled from spec 4.6:
positional comparison, `Any` always matches, `Constant` matches iff equal,
and an arity mismatch simply does not match. -/

/-- Modelled from spec 4.6: one positional matcher against one value. -/
def matcherAccepts : Matcher → TypedValue → Bool
  | .Any, _ => true
  | .Constant c, v => c = v

/-- Modelled from spec 4.6: `pattern_match(query, fact) -> bool`. -/
def pattern_match (q : Query) (fact : AnonymousGroundAtom) : Bool :=
  q.matchers.length = fact.length &&
    (q.matchers.zip fact).all (fun mv => matcherAccepts mv.1 mv.2)

/-! ### Rule evaluator (join engine).

The join engine is part of the core but its source is absent from the
snapshot; modelled from spec 4.4: nested-loop join left-to-right over body
atoms, maintaining a variable binding map; head terms resolved from the
bindings, with Skolemizer terms invoked on their declared dependencies.
The Rust function pointers inside `Skolemizer` terms are supplied as an
interpretation from the opaque function identifier to a Lean function. -/

/-- Interpretation of Skolem function pointers by their opaque identifier. -/
abbrev SkolemInterp := Nat → List TypedValue → TypedValue

/-- Looks up a variable binding. -/
def lookupBinding : List (String × TypedValue) → String → Option TypedValue
  | [], _ => none
  | (k, v) :: rest, x => if k = x then some v else lookupBinding rest x

/-- Modelled from spec 4.4: unify an atom's term list against a candidate
fact.  Unbound variables bind; bound variables and constants must match
exactly; a Skolemizer in a body position is not matched against input atoms
(it is rejected, since it applies only in heads); an arity mismatch rejects
the candidate. -/
def unifyTerms : List (String × TypedValue) → List Term →
    List TypedValue → Option (List (String × TypedValue))
  | b, [], [] => some b
  | b, Term.Variable x :: ts, v :: vs =>
    (match lookupBinding b x with
     | some w => if w = v then unifyTerms b ts vs else none
     | none => unifyTerms ((x, v) :: b) ts vs)
  | b, Term.Constant c :: ts, v :: vs =>
    if c = v then unifyTerms b ts vs else none
  | _, Term.Skolemizer _ :: _, _ :: _ => none
  | _, _ :: _, [] => none
  | _, [], _ :: _ => none

/-- Modelled from spec 4.4: extend a frontier of candidate bindings by one
body atom (nested loop over the atom's relation contents). -/
def extendBindings (s : RelationStorage) (a : Atom)
    (frontier : List (List (String × TypedValue))) :
    List (List (String × TypedValue)) :=
  frontier.foldr
    (fun b acc =>
      (s.getRelation a.symbol).foldr
        (fun fact acc2 =>
          match unifyTerms b a.terms fact with
          | some b2 => b2 :: acc2
          | none => acc2)
        acc)
    []

/-- Modelled from spec 4.4: evaluate a rule body left-to-right, producing
every consistent binding. -/
def evalBody (s : RelationStorage) (body : List Atom) :
    List (List (String × TypedValue)) :=
  body.foldl (fun frontier a => extendBindings s a frontier) [[]]

/-- Collects the bound values of a Skolemizer's declared dependencies;
a missing dependency is a rule-evaluation failure (spec 7,
SkolemFunctionError). -/
def depValues (b : List (String × TypedValue)) :
    List String → Option (List TypedValue)
  | [] => some []
  | d :: ds =>
    match lookupBinding b d with
    | some v => (depValues b ds).map (fun vs => v :: vs)
    | none => none

/-- Modelled from spec 4.4: resolve one head term under a binding. -/
def resolveTerm (interp : SkolemInterp) (b : List (String × TypedValue)) :
    Term → Option TypedValue
  | Term.Variable x => lookupBinding b x
  | Term.Constant c => some c
  | Term.Skolemizer f => (depValues b f.deps).map (interp f.func)

/-- Modelled from spec 4.4: every ground atom derivable by one application of
the rule against the current storage. -/
def evalRule (interp : SkolemInterp) (s : RelationStorage) (r : Rule) :
    List AnonymousGroundAtom :=
  (evalBody s r.body).filterMap
    (fun b => r.head.terms.mapM (resolveTerm interp b))

/-- Modelled from spec 4.5: materialize one delta rule, accumulating the
derived facts into the head's delta relation and its base counterpart. -/
def materializeRule (interp : SkolemInterp) (s : RelationStorage) (r : Rule) :
    RelationStorage :=
  let facts := evalRule interp s r
  let s1 := s.insertRegistered r.head.symbol facts
  if isDeltaName r.head.symbol then
    s1.insertRegistered (stripDeltaName r.head.symbol) facts
  else s1

/-- Modelled from spec 4.5: materialize a delta program by evaluating its
rules in order (`materialize_nonrecursive_delta_program` and
`materialize_recursive_delta_program` of the storage). -/
def materializeProgram (interp : SkolemInterp) (p : Program)
    (s : RelationStorage) : RelationStorage :=
  p.inner.foldl (materializeRule interp) s

/-! ### Dependency graph / stratifier.

`program_transformations/dependency_graph.rs` and `helpers/helpers.rs`
(`split_program`, `sort_program`) are absent from the snapshot; modelled from
spec 4.2. -/

/-- Modelled from spec 4.2: the dependency edges, one from body relation to
head relation for every rule. -/
def programEdges (p : Program) : List (String × String) :=
  p.inner.flatMap (fun r => r.body.map (fun a => (a.symbol, r.head.symbol)))

/-- Successors of a node in the dependency graph. -/
def succsOf (edges : List (String × String)) (x : String) : List String :=
  (edges.filter (fun e => decide (e.1 = x))).map (fun e => e.2)

/-- One closure expansion step: add the successors of every known node. -/
def stepClose (edges : List (String × String)) (cur : List String) :
    List String :=
  cur ++ (cur.flatMap (succsOf edges)).filter (fun y => decide (¬ y ∈ cur))

/-- Nodes reachable from `start` within `fuel` expansion steps. -/
def closeFrom (edges : List (String × String)) : Nat → List String →
    List String
  | 0, cur => cur
  | fuel + 1, cur => closeFrom edges fuel (stepClose edges cur)

/-- Modelled from spec 4.2: a relation is recursive iff it reaches itself via
a nonzero-length path.  A path never repeats an edge needlessly, so
`edges.length` expansion steps saturate the closure. -/
def reachesItself (edges : List (String × String)) (x : String) : Bool :=
  x ∈ closeFrom edges edges.length (succsOf edges x)

/-- Modelled from spec 4.2: `split_program` sends a rule to the recursive
program iff its head relation is recursive; all other rules form the
nonrecursive program. -/
def split_program (p : Program) : Program × Program :=
  (⟨p.inner.filter (fun r => !reachesItself (programEdges p) r.head.symbol)⟩,
   ⟨p.inner.filter (fun r => reachesItself (programEdges p) r.head.symbol)⟩)

/-- One topological selection round: rules none of whose body relations are
still-unplaced heads are ready. -/
def topoReady (remaining : List Rule) (r : Rule) : Bool :=
  r.body.all (fun a =>
    !(remaining.any (fun r2 => decide (r2.head.symbol = a.symbol))))

/-- Modelled from spec 4.2: Kahn-style topological sorting of the
nonrecursive rules by relation dependency.  A cycle among nominally
nonrecursive rules cannot occur for programs produced by `split_program`;
the model keeps the stuck remainder in place in that unreachable case. -/
def topoSort : Nat → List Rule → List Rule
  | 0, remaining => remaining
  | fuel + 1, remaining =>
    match remaining with
    | [] => []
    | _ =>
      let ready := remaining.filter (topoReady remaining)
      match ready with
      | [] => remaining
      | _ => ready ++ topoSort fuel (remaining.filter
          (fun r => !topoReady remaining r))

/-- Modelled from spec 4.2: `sort_program`. -/
def sort_program (p : Program) : Program :=
  ⟨topoSort p.inner.length p.inner⟩

/-! ### Delta program transform.

`program_transformations/delta_program.rs` (`make_delta_program`) is absent
from the snapshot; modelled from spec 4.3. -/

/-- Replaces an atom's relation by its delta counterpart. -/
def deltaAtom (a : Atom) : Atom := { a with symbol := deltaMarker ++ a.symbol }

/-- Modelled from spec 4.3: the delta-rule variants of one rule, one per body
position, with that position and the head retargeted to delta relations. -/
def deltaVariants (r : Rule) : List Rule :=
  (List.range r.body.length).map (fun i =>
    { head := deltaAtom r.head,
      body := r.body.mapIdx (fun j a => if j = i then deltaAtom a else a),
      id := r.id })

/-- Modelled from spec 4.3: `make_delta_program` (the Rust function also takes
a seed-pass flag, which is always `true` on the single call site in
`MicroRuntime::new`; only that behavior is modelled).  The rewritten rules
form a full `Program` (sorted, ids reassigned). -/
def make_delta_program (p : Program) : Program :=
  Program.fromRules (p.inner.flatMap deltaVariants)

/-! ### Semi-naive fixpoint driver (`src/evaluation/semi_naive.rs`).

The Rust loop is unbounded (`loop { ... }`); it is embedded with explicit
fuel, returning `none` when fuel runs out, together with the number of
executed recursive loop iterations.  The `usize` subtraction
`new_non_delta_fact_count - previous_non_delta_fact_count` is embedded as
`Nat` subtraction; `materializeProgram_len_mono` below shows the minuend is
never smaller, so truncation (like a Rust underflow panic) cannot occur. -/

/-- Embeds the `loop` of `semi_naive_evaluation`: record the non-delta fact
count, materialize the recursive delta program once, and stop when no new
facts appeared.  Returns the storage and the number of loop iterations
executed. -/
def snLoop (interp : SkolemInterp) (recProg : Program) :
    Nat → RelationStorage → Option (RelationStorage × Nat)
  | 0, _ => none
  | fuel + 1, s =>
    let previous_non_delta_fact_count := s.len
    let s2 := materializeProgram interp recProg s
    let new_non_delta_fact_count := s2.len
    if new_non_delta_fact_count - previous_non_delta_fact_count = 0 then
      some (s2, 1)
    else
      match snLoop interp recProg fuel s2 with
      | some (s3, n) => some (s3, n + 1)
      | none => none

/-- Embeds `semi_naive_evaluation` from `src/evaluation/semi_naive.rs`:
materialize the nonrecursive delta program once (the seed pass), then run the
recursive loop to fixpoint. -/
def semi_naive_evaluation (interp : SkolemInterp) (fuel : Nat)
    (relation_storage : RelationStorage)
    (nonrecursive_delta_program recursive_delta_program : Program) :
    Option (RelationStorage × Nat) :=
  snLoop interp recursive_delta_program fuel
    (materializeProgram interp nonrecursive_delta_program relation_storage)

/-! ### Runtime facade (`src/engine/datalog.rs`). -/

/-- Embeds `MicroRuntime`.  The Rust struct stores Skolem function pointers
inside the programs' `Skolemizer` terms; the embedding carries their
interpretation as a separate field. -/
structure MicroRuntime where
  processed : RelationStorage
  unprocessed_insertions : RelationStorage
  nonrecursive_delta_program : Program
  recursive_delta_program : Program
  interp : SkolemInterp

/-- Collects every relation symbol mentioned as a head or body of the
program, in encounter order (embeds the `HashSet` registration loop of
`MicroRuntime::new`; a hash set leaves iteration order open, the embedding
fixes encounter order). -/
def addUnique (acc : List String) (s : String) : List String :=
  if s ∈ acc then acc else acc ++ [s]

/-- The relation symbols of a program, deduplicated in encounter order. -/
def relationsOf (p : Program) : List String :=
  p.inner.foldl
    (fun acc r =>
      (r.body.map (fun a => a.symbol)).foldl addUnique
        (addUnique acc r.head.symbol))
    []

/-- Storage with an empty registered entry per name. -/
def emptyEntries (names : List String) : RelationStorage :=
  ⟨names.map (fun n => (n, []))⟩

/-- Embeds `MicroRuntime::new` (lines 78-125 of `src/engine/datalog.rs`):
register every mentioned relation (plus its delta twin) with an empty fact
set, build the delta program, split it, and topologically sort the
nonrecursive part.  The function is total: no head-safety or other validation
happens here. -/
def MicroRuntime.new (interp : SkolemInterp) (program : Program) :
    MicroRuntime :=
  let rels := relationsOf program
  let processed :=
    emptyEntries (rels ++ rels.map (fun n => deltaMarker ++ n))
  let unprocessed := emptyEntries rels
  let dp := make_delta_program program
  let parts := split_program dp
  { processed := processed,
    unprocessed_insertions := unprocessed,
    nonrecursive_delta_program := sort_program parts.1,
    recursive_delta_program := parts.2,
    interp := interp }

/-- Embeds `MicroRuntime::insert`: buffer a fact in the unprocessed storage;
returns whether it was new to the buffer. -/
def MicroRuntime.insert (rt : MicroRuntime) (relation : String)
    (ground_atom : AnonymousGroundAtom) : MicroRuntime × Bool :=
  let r := rt.unprocessed_insertions.insert relation ground_atom
  ({ rt with unprocessed_insertions := r.1 }, r.2)

/-- Embeds `MicroRuntime::safe`: true iff the unprocessed buffer is empty. -/
def MicroRuntime.safe (rt : MicroRuntime) : Bool :=
  rt.unprocessed_insertions.isEmpty

/-- Embeds `MicroRuntime::contains` (lines 24-38): error unless safe, then
processed membership with a fallback to the unprocessed buffer. -/
def MicroRuntime.contains (rt : MicroRuntime) (relation : String)
    (ground_atom : AnonymousGroundAtom) : Except String Bool :=
  if !rt.safe then Except.error "poll needed to obtain correct results"
  else if !(rt.processed.contains relation ground_atom) then
    Except.ok (rt.unprocessed_insertions.contains relation ground_atom)
  else Except.ok true

/-- Embeds `MicroRuntime::query` (lines 39-52): error unless safe, then
filter the processed relation by the pattern matcher (the Rust iterator is
embedded as the list it yields). -/
def MicroRuntime.query (rt : MicroRuntime) (q : Query) :
    Except String (List AnonymousGroundAtom) :=
  if !rt.safe then Except.error "poll needed to obtain correct results"
  else Except.ok
    ((rt.processed.getRelation q.symbol).filter (fun fact =>
      pattern_match q fact))

/-- The first half of `MicroRuntime::poll`: dump every buffered entry into
the delta relation and the base relation of the processed storage. -/
def dumpUnprocessed (rt : MicroRuntime) : RelationStorage :=
  rt.unprocessed_insertions.inner.foldl
    (fun s kv =>
      (s.insertRegistered (deltaMarker ++ kv.1) kv.2).insertRegistered
        kv.1 kv.2)
    rt.processed

/-- Embeds `MicroRuntime::poll` (lines 53-77), instrumented with the number
of recursive loop iterations executed (0 when the buffer was empty and poll
was a no-op): drain the buffer into delta and base storage, run
`semi_naive_evaluation`, then drain the deltas. -/
def MicroRuntime.pollCount (rt : MicroRuntime) (fuel : Nat) :
    Option (MicroRuntime × Nat) :=
  if !rt.unprocessed_insertions.isEmpty then
    match semi_naive_evaluation rt.interp fuel (dumpUnprocessed rt)
        rt.nonrecursive_delta_program rt.recursive_delta_program with
    | some (s2, rounds) =>
      some ({ rt with
                processed := s2.drainDeltas,
                unprocessed_insertions := ⟨[]⟩ }, rounds)
    | none => none
  else some (rt, 0)

/-- Embeds `MicroRuntime::poll`, discarding the iteration count. -/
def MicroRuntime.poll (rt : MicroRuntime) (fuel : Nat) :
    Option MicroRuntime :=
  (rt.pollCount fuel).map (fun x => x.1)

/-! ### The head-safety check of the rule macro
(`datalog_rule_macro/src/lib.rs`, `RuleMacroInput::parse`, lines 28-70). -/

/-- The variable names among a term list. -/
def variableNames (terms : List Term) : List String :=
  terms.filterMap (fun t =>
    match t with
    | Term.Variable v => some v
    | _ => none)

/-- Embeds the head-safety check of `RuleMacroInput::parse`: every variable
of the head must occur as a variable of some body atom, otherwise parsing
fails with an error naming the unbound variable. -/
def headCheckRule (head : Atom) (body : List Atom) : Except String Unit :=
  match (variableNames head.terms).find?
      (fun v => decide (¬ v ∈ body.flatMap (fun a => variableNames a.terms)))
  with
  | some v =>
    Except.error ("variable " ++ v ++ " not found in the body")
  | none => Except.ok ()

/-! ### The transitive-closure scenario of `integration_test_insertions_only`
(`src/engine/datalog.rs`, lines 162-262). -/

/-- A Skolem interpretation for programs without Skolemizer terms (none of
the concrete programs below contain one, so it is never consulted). -/
def interp0 : SkolemInterp := fun _ _ => TypedValue.Str ""

/-- Shorthand for a string value. -/
def sv (s : String) : TypedValue := TypedValue.Str s

/-- The rule `tc(?x, ?y) <- [e(?x, ?y)]`. -/
def tcRule1 : Rule :=
  { head := { terms := [Term.Variable "x", Term.Variable "y"], symbol := "tc" },
    body := [{ terms := [Term.Variable "x", Term.Variable "y"],
               symbol := "e" }],
    id := 0 }

/-- The rule `tc(?x, ?z) <- [e(?x, ?y), tc(?y, ?z)]`. -/
def tcRule2 : Rule :=
  { head := { terms := [Term.Variable "x", Term.Variable "z"], symbol := "tc" },
    body := [{ terms := [Term.Variable "x", Term.Variable "y"],
               symbol := "e" },
             { terms := [Term.Variable "y", Term.Variable "z"],
               symbol := "tc" }],
    id := 0 }

/-- The transitive-closure program of the integration test (the `program!`
macro emits the rules with id 0 and converts through `Program::from`). -/
def tcProgram : Program := Program.fromRules [tcRule1, tcRule2]

/-- The runtime after inserting the edges (a,b), (b,c), (c,d) into `e`. -/
def tcAfterInserts : MicroRuntime :=
  ((((MicroRuntime.new interp0 tcProgram).insert "e" [sv "a", sv "b"]).1.insert
      "e" [sv "b", sv "c"]).1.insert "e" [sv "c", sv "d"]).1

/-- The all-wildcard query `tc(_, _)`. -/
def tcAllQuery : Query := { matchers := [Matcher.Any, Matcher.Any], symbol := "tc" }

/-- The query `tc("a", _)`. -/
def tcFromAQuery : Query :=
  { matchers := [Matcher.Constant (sv "a"), Matcher.Any], symbol := "tc" }

/-- The six reachable pairs over the edges a→b→c→d. -/
def tcExpectedFirst : List AnonymousGroundAtom :=
  [[sv "a", sv "b"], [sv "b", sv "c"], [sv "c", sv "d"],
   [sv "a", sv "c"], [sv "b", sv "d"], [sv "a", sv "d"]]

/-- The ten reachable pairs after additionally inserting the edge (d,e). -/
def tcExpectedSecond : List AnonymousGroundAtom :=
  tcExpectedFirst ++
    [[sv "d", sv "e"], [sv "c", sv "e"], [sv "b", sv "e"], [sv "a", sv "e"]]

/-- The all-wildcard query results of `tc` after the first poll. -/
def tcFirstPollResult : Option (List AnonymousGroundAtom) :=
  (tcAfterInserts.poll 10).bind (fun rt => (rt.query tcAllQuery).toOption)

/-- The all-wildcard query results of `tc` after inserting (d,e) and polling
again. -/
def tcSecondPollResult : Option (List AnonymousGroundAtom) :=
  (tcAfterInserts.poll 10).bind (fun rt =>
    ((rt.insert "e" [sv "d", sv "e"]).1.poll 10).bind (fun rt2 =>
      (rt2.query tcAllQuery).toOption))

/-- A proposition comparing an optional query result with an expected fact
list up to permutation (exactly the expected facts, no duplicates beyond
multiplicity, and a result at all). -/
def optionPerm : Option (List AnonymousGroundAtom) →
    List AnonymousGroundAtom → Prop
  | none, _ => False
  | some l2, l => l2.Perm l

instance : (o : Option (List AnonymousGroundAtom)) →
    (l : List AnonymousGroundAtom) → Decidable (optionPerm o l)
  | none, _ => isFalse (fun h => h)
  | some l2, l => inferInstanceAs (Decidable (l2.Perm l))

/-! ### Further concrete scenarios used by individual claims. -/

/-- The acyclic single-rule program `b(?x) <- [a(?x)]`. -/
def acycProgram : Program :=
  Program.fromRules
    [{ head := { terms := [Term.Variable "x"], symbol := "b" },
       body := [{ terms := [Term.Variable "x"], symbol := "a" }],
       id := 0 }]

/-- The acyclic-program runtime with one pending insertion into `a`. -/
def acycRuntime : MicroRuntime :=
  ((MicroRuntime.new interp0 acycProgram).insert "a" [sv "one"]).1

/-- A head-unsafe rule: the head variable `y` appears in no body atom
(`q(?x, ?y) <- [p(?x)]`). -/
def unboundHeadRule : Rule :=
  { head := { terms := [Term.Variable "x", Term.Variable "y"], symbol := "q" },
    body := [{ terms := [Term.Variable "x"], symbol := "p" }],
    id := 0 }

/-- A program containing the head-unsafe rule. -/
def unboundHeadProgram : Program := Program.fromRules [unboundHeadRule]

/-- A rule with its id erased, for comparing rule content irrespective of the
ids `Program::from` reassigns. -/
def stripId (r : Rule) : Rule := { r with id := 0 }

/-- The specification-side meaning of one positional matcher (spec 4.6 and
claim C9): `Any` accepts any value; `Constant c` accepts exactly the value
`c`.  Stated independently of the executable `matcherAccepts` so the latter
can be proved to refine it. -/
def matcherSpec : Matcher → TypedValue → Prop
  | Matcher.Any, _ => True
  | Matcher.Constant c, v => v = c

/-- The head-then-body comparison prefix of the derived rule order (what the
order looks like when the `id` field is ignored). -/
def cmpRuleContent (a b : Rule) : Ordering :=
  (cmpAtom a.head b.head).then (cmpList cmpAtom a.body b.body)

/-- The head-body partial-order relation used while reasoning about id
reassignment in `Program::from`. -/
def hbLe (a b : Rule) : Prop :=
  cmpRuleContent a b ≠ .gt

/-! ## Theorems -/

theorem insertEntry_weight_mono (name : String) (fact : AnonymousGroundAtom) :
    ∀ l : List (String × List AnonymousGroundAtom),
      (l.map entryWeight).sum ≤
        (((insertEntry l name fact).1).map entryWeight).sum := by
  intro l
  induction l with
  | nil => simp [insertEntry]
  | cons kv rest ih =>
    obtain ⟨k, v⟩ := kv
    by_cases hk : k = name
    · by_cases hv : fact ∈ v
      · simp [insertEntry, hk, hv]
      · simp only [insertEntry, hk, if_pos, hv, if_neg, if_false,
          List.map_cons, List.sum_cons, entryWeight]
        split <;> simp
    · simp only [insertEntry, hk, if_neg, List.map_cons, List.sum_cons,
        if_false]
      exact Nat.add_le_add_left ih _

theorem insert_len_mono (s : RelationStorage) (name : String)
    (fact : AnonymousGroundAtom) : s.len ≤ ((s.insert name fact).1).len :=
  insertEntry_weight_mono name fact s.inner

theorem insertRegistered_len_mono (name : String) :
    ∀ (facts : List AnonymousGroundAtom) (s : RelationStorage),
      s.len ≤ (s.insertRegistered name facts).len := by
  intro facts
  induction facts with
  | nil => intro s; exact Nat.le_refl _
  | cons f fs ih =>
    intro s
    exact Nat.le_trans (insert_len_mono s name f) (ih ((s.insert name f).1))

theorem materializeRule_len_mono (interp : SkolemInterp)
    (s : RelationStorage) (r : Rule) :
    s.len ≤ (materializeRule interp s r).len := by
  unfold materializeRule
  split
  · exact Nat.le_trans (insertRegistered_len_mono _ _ s)
      (insertRegistered_len_mono _ _ _)
  · exact insertRegistered_len_mono _ _ s

theorem materializeProgram_len_mono (interp : SkolemInterp) (p : Program)
    (s : RelationStorage) : s.len ≤ (materializeProgram interp p s).len := by
  unfold materializeProgram
  generalize p.inner = rs
  induction rs generalizing s with
  | nil => exact Nat.le_refl _
  | cons r rs ih =>
    exact Nat.le_trans (materializeRule_len_mono interp s r)
      (ih (materializeRule interp s r))

/-- C10: in `semi_naive_evaluation`, the `usize` subtraction
`new_non_delta_fact_count - previous_non_delta_fact_count` cannot underflow:
for every relation storage, Skolem interpretation and recursive delta
program, materializing the program never decreases the non-delta fact count
reported by `len`, so the count taken after each recursive pass is at least
the count taken before it. -/
theorem recursive_pass_never_decreases_len (interp : SkolemInterp)
    (recursive_delta_program : Program) (s : RelationStorage) :
    s.len ≤ (materializeProgram interp recursive_delta_program s).len :=
  materializeProgram_len_mono interp recursive_delta_program s

theorem snLoop_isSome_of_bounded (interp : SkolemInterp) (p : Program)
    (B : Nat) :
    ∀ (k : Nat) (s : RelationStorage),
      (∀ n, ((materializeProgram interp p)^[n] s).len ≤ B) →
      B + 1 - s.len ≤ k → (snLoop interp p k s).isSome = true := by
  intro k
  induction k with
  | zero =>
    intro s hB hk
    have h0 := hB 0
    rw [Function.iterate_zero_apply] at h0
    omega
  | succ k ih =>
    intro s hB hk
    by_cases hz : (materializeProgram interp p s).len - s.len = 0
    · simp [snLoop, hz]
    · have hmono := materializeProgram_len_mono interp p s
      have h0 := hB 0
      rw [Function.iterate_zero_apply] at h0
      have hB2 : ∀ n,
          ((materializeProgram interp p)^[n]
            (materializeProgram interp p s)).len ≤ B := by
        intro n
        have h1 := hB (n + 1)
        rwa [Function.iterate_succ_apply] at h1
      have hrec := ih (materializeProgram interp p s) hB2 (by omega)
      rw [Option.isSome_iff_exists] at hrec
      obtain ⟨⟨s3, n⟩, hp⟩ := hrec
      simp [snLoop, hz, hp]

/-- C3: `semi_naive_evaluation` terminates for every relation storage and
every pair of delta programs, under the preconditions that relation storage
rejects duplicate facts (built into the model: `insertEntry` adds nothing
when the fact is already present) and that the universe of derivable facts is
bounded (the hypothesis `hB`): every loop iteration either strictly increases
the non-delta fact count or exits, and the count is bounded above, so some
finite fuel makes the embedded loop return. -/
theorem semi_naive_evaluation_terminates (interp : SkolemInterp)
    (relation_storage : RelationStorage)
    (nonrecursive_delta_program recursive_delta_program : Program) (B : Nat)
    (hB : ∀ n, ((materializeProgram interp recursive_delta_program)^[n]
      (materializeProgram interp nonrecursive_delta_program
        relation_storage)).len ≤ B) :
    ∃ fuel, (semi_naive_evaluation interp fuel relation_storage
      nonrecursive_delta_program recursive_delta_program).isSome = true := by
  refine ⟨B + 1, ?_⟩
  unfold semi_naive_evaluation
  exact snLoop_isSome_of_bounded interp recursive_delta_program B (B + 1) _
    hB (by omega)

/-- Witness for C3: the bound hypothesis is satisfiable at a concrete input
(the acyclic runtime state right after its buffered facts are dumped; its
recursive delta program is empty, so every iterate keeps the seeded
storage). -/
theorem semi_naive_evaluation_terminates_witness :
    ∃ fuel, (semi_naive_evaluation acycRuntime.interp fuel
      (dumpUnprocessed acycRuntime)
      acycRuntime.nonrecursive_delta_program
      acycRuntime.recursive_delta_program).isSome = true :=
  semi_naive_evaluation_terminates acycRuntime.interp
    (dumpUnprocessed acycRuntime)
    acycRuntime.nonrecursive_delta_program
    acycRuntime.recursive_delta_program
    (materializeProgram acycRuntime.interp
      acycRuntime.nonrecursive_delta_program
      (dumpUnprocessed acycRuntime)).len
    (fun n => by rw [Function.iterate_fixed rfl n])

/-- C1: for the transitive-closure program
`tc(?x,?y) <- e(?x,?y); tc(?x,?z) <- e(?x,?y), tc(?y,?z)`, after inserting
the edges (a,b), (b,c), (c,d) into `e` and calling `poll` once, the
all-wildcard query on `tc` returns exactly
`{(a,b),(b,c),(c,d),(a,c),(b,d),(a,d)}` — all reachable pairs including
multi-hop ones, and nothing else. -/
theorem tc_first_poll_all_reachable_pairs :
    optionPerm tcFirstPollResult tcExpectedFirst := by decide

/-- C2: continuing from the polled transitive-closure state, inserting the
single edge (d,e) into `e` and polling again makes the all-wildcard query on
`tc` return exactly the previous six pairs plus (d,e),(c,e),(b,e),(a,e),
with no duplicates and no loss of previously derived facts. -/
theorem tc_second_poll_incremental_update :
    optionPerm tcSecondPollResult tcExpectedSecond := by decide

theorem query_isOk_eq_safe (rt : MicroRuntime) (q : Query) :
    (rt.query q).isOk = rt.safe := by
  cases hs : rt.safe <;> simp [MicroRuntime.query, hs, Except.isOk, Except.toBool]

theorem contains_isOk_eq_safe (rt : MicroRuntime) (relation : String)
    (fact : AnonymousGroundAtom) :
    (rt.contains relation fact).isOk = rt.safe := by
  cases hs : rt.safe
  · simp [MicroRuntime.contains, hs, Except.isOk, Except.toBool]
  · simp only [MicroRuntime.contains, hs, Bool.not_true, Bool.false_eq_true,
      if_false]
    split <;> rfl

theorem poll_some_safe (rt : MicroRuntime) (fuel : Nat) (rt2 : MicroRuntime)
    (h : rt.poll fuel = some rt2) : rt2.safe = true := by
  unfold MicroRuntime.poll MicroRuntime.pollCount at h
  by_cases hempty : rt.unprocessed_insertions.isEmpty
  · simp [hempty] at h
    rw [← h]
    exact hempty
  · rcases hsn : semi_naive_evaluation rt.interp fuel (dumpUnprocessed rt)
        rt.nonrecursive_delta_program rt.recursive_delta_program with
      _ | ⟨s2, rounds⟩
    · simp [hempty, hsn] at h
    · simp [hempty, hsn] at h
      rw [← h]
      rfl

/-- C4: for every runtime state, `query` and `contains` fail exactly when
unprocessed insertions are pending (`safe()` false), and whenever `poll`
returns, the resulting runtime satisfies `safe()` and both `query` and
`contains` succeed. -/
theorem stale_read_error_iff_pending (rt : MicroRuntime) (q : Query)
    (relation : String) (fact : AnonymousGroundAtom) :
    ((rt.query q).isOk = rt.safe) ∧
    ((rt.contains relation fact).isOk = rt.safe) ∧
    (∀ fuel rt2, rt.poll fuel = some rt2 →
      rt2.safe = true ∧ (rt2.query q).isOk = true ∧
        (rt2.contains relation fact).isOk = true) := by
  refine ⟨query_isOk_eq_safe rt q, contains_isOk_eq_safe rt relation fact,
    fun fuel rt2 h => ?_⟩
  have hsafe := poll_some_safe rt fuel rt2 h
  refine ⟨hsafe, ?_, ?_⟩
  · rw [query_isOk_eq_safe, hsafe]
  · rw [contains_isOk_eq_safe, hsafe]

/-- Witness for C4: a freshly constructed runtime has an empty buffer, `poll`
returns it unchanged, and the theorem then yields a succeeding query. -/
theorem stale_read_witness :
    ((MicroRuntime.new interp0 tcProgram).poll 1 =
      some (MicroRuntime.new interp0 tcProgram)) ∧
    (MicroRuntime.new interp0 tcProgram).safe = true ∧
    ((MicroRuntime.new interp0 tcProgram).query tcAllQuery).isOk = true :=
  ⟨rfl,
   ((stale_read_error_iff_pending (MicroRuntime.new interp0 tcProgram)
      tcAllQuery "tc" []).2.2 1 (MicroRuntime.new interp0 tcProgram)
      rfl).1,
   ((stale_read_error_iff_pending (MicroRuntime.new interp0 tcProgram)
      tcAllQuery "tc" []).2.2 1 (MicroRuntime.new interp0 tcProgram)
      rfl).2.1⟩

/-- C5 as stated is refuted: even for an acyclic program the embedded
`semi_naive_evaluation` loop body always executes at least once.  For the
concrete acyclic program `b(?x) <- [a(?x)]` with one pending insertion, no
relation of its delta program reaches itself, yet `poll` performs exactly one
recursive loop iteration, not zero. -/
theorem acyclic_poll_rounds_not_zero :
    (∀ r ∈ (make_delta_program acycProgram).inner,
      reachesItself (programEdges (make_delta_program acycProgram))
        r.head.symbol = false) ∧
    (acycRuntime.pollCount 5).map (fun x => x.2) = some 1 ∧
    ¬((acycRuntime.pollCount 5).map (fun x => x.2) = some 0) := by
  refine ⟨by decide, by decide, by decide⟩

/-- C5 corrected: for every program none of whose delta-program relations
reaches itself through the rule-dependency graph (the engine's acyclicity
notion, under which `split_program` classifies every rule nonrecursive), a
`poll` with pending insertions materializes the sorted nonrecursive delta
program exactly once (the final storage is one seed materialization of it,
drained) and executes exactly one recursive loop iteration, which derives
nothing. -/
theorem acyclic_poll_one_seed_pass_one_noop_round (p : Program)
    (rt : MicroRuntime) (fuel : Nat)
    (hprog : rt.recursive_delta_program =
      (split_program (make_delta_program p)).2)
    (hacyclic : ∀ r ∈ (make_delta_program p).inner,
      reachesItself (programEdges (make_delta_program p)) r.head.symbol =
        false)
    (hpending : rt.unprocessed_insertions.isEmpty = false) :
    rt.pollCount (fuel + 1) =
      some ({ rt with
                processed := (materializeProgram rt.interp
                  rt.nonrecursive_delta_program
                  (dumpUnprocessed rt)).drainDeltas,
                unprocessed_insertions := ⟨[]⟩ }, 1) := by
  have hempty : rt.recursive_delta_program.inner = [] := by
    rw [hprog]
    simp only [split_program]
    rw [List.filter_eq_nil_iff]
    intro r hr
    simp [hacyclic r hr]
  have hmatid : ∀ s, materializeProgram rt.interp
      rt.recursive_delta_program s = s := by
    intro s
    unfold materializeProgram
    rw [hempty]
    rfl
  have hsn : ∀ s, snLoop rt.interp rt.recursive_delta_program (fuel + 1) s =
      some (s, 1) := by
    intro s
    simp [snLoop, hmatid s]
  unfold MicroRuntime.pollCount
  rw [hpending]
  simp only [Bool.not_false, if_pos, semi_naive_evaluation, hsn]

/-- Witness for C5: the corrected statement applies to the concrete acyclic
runtime, whose hypotheses hold by computation. -/
theorem acyclic_poll_witness :
    acycRuntime.pollCount 5 =
      some ({ acycRuntime with
                processed := (materializeProgram acycRuntime.interp
                  acycRuntime.nonrecursive_delta_program
                  (dumpUnprocessed acycRuntime)).drainDeltas,
                unprocessed_insertions := ⟨[]⟩ }, 1) :=
  acyclic_poll_one_seed_pass_one_noop_round acycProgram acycRuntime 4 rfl
    (by decide) (by decide)

/-- C6 as stated is refuted: a fact buffered by `insert` but not yet polled
is NOT reported as present by `contains` — the call errors instead, because
`contains` checks `safe()` first and the buffer is nonempty.  Concretely,
after buffering the edge (a,b) the buffer holds the fact, yet `contains`
returns the stale-state error rather than `Ok(true)`. -/
theorem buffered_fact_contains_errors :
    tcAfterInserts.unprocessed_insertions.contains "e" [sv "a", sv "b"] =
      true ∧
    tcAfterInserts.safe = false ∧
    tcAfterInserts.contains "e" [sv "a", sv "b"] =
      Except.error "poll needed to obtain correct results" ∧
    (tcAfterInserts.contains "e" [sv "a", sv "b"]).isOk = false :=
  ⟨rfl, rfl, rfl, rfl⟩

/-- C6 corrected: when `contains` does not error, it reports the fact as
contained iff the fact is in the processed storage or among the buffered
insertions for that relation — but the buffered disjunct is vacuous, since
`contains` errors whenever any insertion is pending; a buffered, unpolled
fact is visible neither to `contains` nor to `query`, both of which return
the stale-state error. -/
theorem contains_reads_processed_or_buffer (rt : MicroRuntime)
    (relation : String) (fact : AnonymousGroundAtom) (q : Query) :
    (rt.safe = true →
      rt.contains relation fact =
        Except.ok (rt.processed.contains relation fact ||
          rt.unprocessed_insertions.contains relation fact)) ∧
    (rt.safe = false →
      rt.contains relation fact =
        Except.error "poll needed to obtain correct results" ∧
      rt.query q =
        Except.error "poll needed to obtain correct results") := by
  constructor
  · intro hs
    unfold MicroRuntime.contains
    rw [hs]
    cases hp : rt.processed.contains relation fact
    · simp [hp]
    · simp [hp]
  · intro hs
    constructor
    · unfold MicroRuntime.contains
      rw [hs]
      rfl
    · unfold MicroRuntime.query
      rw [hs]
      rfl

/-- Witness for C6: on a freshly constructed (safe) runtime the corrected
characterization computes. -/
theorem contains_semantics_witness :
    (MicroRuntime.new interp0 tcProgram).safe = true ∧
    (MicroRuntime.new interp0 tcProgram).contains "tc" [sv "a"] =
      Except.ok
        ((MicroRuntime.new interp0 tcProgram).processed.contains "tc"
            [sv "a"] ||
          (MicroRuntime.new interp0 tcProgram).unprocessed_insertions.contains
            "tc" [sv "a"]) :=
  ⟨rfl,
   (contains_reads_processed_or_buffer (MicroRuntime.new interp0 tcProgram)
      "tc" [sv "a"] tcAllQuery).1 rfl⟩

theorem then_ne_gt_iff {x y : Ordering} :
    x.then y ≠ .gt ↔ x ≠ .gt ∧ (x = .eq → y ≠ .gt) := by
  cases x <;> cases y <;> decide

theorem then_assoc (x y z : Ordering) :
    (x.then y).then z = x.then (y.then z) := by
  cases x <;> cases y <;> cases z <;> rfl

theorem cmpRule_eq_then (a b : Rule) :
    cmpRule a b = (cmpRuleContent a b).then (cmpNat a.id b.id) := by
  rw [cmpRuleContent, then_assoc]
  rfl

theorem cmpNat_ne_gt {a b : Nat} : cmpNat a b ≠ .gt ↔ a ≤ b := by
  unfold cmpNat
  rw [ne_eq, Nat.compare_eq_gt]
  omega

theorem ruleLe_imp_hbLe {a b : Rule} (h : ruleLe a b) : hbLe a b := by
  unfold ruleLe at h
  rw [cmpRule_eq_then] at h
  exact (then_ne_gt_iff.1 h).1

theorem mem_assignIds {x : Rule} :
    ∀ {m : Nat} {t : List Rule}, x ∈ assignIds m t →
      ∃ y ∈ t, ∃ k, m ≤ k ∧ x = { y with id := k } := by
  intro m t
  induction t generalizing m with
  | nil => intro h; cases h
  | cons y t2 ih =>
    intro h
    rcases List.mem_cons.1 h with h | h
    · exact ⟨y, List.mem_cons_self y t2, m, Nat.le_refl m, h⟩
    · obtain ⟨y2, hy2, k, hk, hx⟩ := ih h
      exact ⟨y2, List.mem_cons_of_mem y hy2, k, by omega, hx⟩

theorem assignIds_sorted :
    ∀ (n : Nat) (l : List Rule), l.Pairwise hbLe →
      (assignIds n l).Sorted ruleLe := by
  intro n l
  induction l generalizing n with
  | nil => intro _; exact List.sorted_nil
  | cons r t ih =>
    intro hp
    rw [List.pairwise_cons] at hp
    rw [assignIds, List.sorted_cons]
    refine ⟨?_, ih (n + 1) hp.2⟩
    intro x hx
    obtain ⟨y, hy, k, hk, rfl⟩ := mem_assignIds hx
    unfold ruleLe
    rw [cmpRule_eq_then]
    refine then_ne_gt_iff.2 ⟨hp.1 y hy, fun _ => ?_⟩
    show cmpNat n k ≠ Ordering.gt
    exact cmpNat_ne_gt.2 (by omega)

theorem assignIds_map_id :
    ∀ (n : Nat) (l : List Rule),
      (assignIds n l).map Rule.id = List.range' n l.length := by
  intro n l
  induction l generalizing n with
  | nil => rfl
  | cons r t ih => simp [assignIds, List.range', ih]

theorem assignIds_map_stripId :
    ∀ (n : Nat) (l : List Rule),
      (assignIds n l).map stripId = l.map stripId := by
  intro n l
  induction l generalizing n with
  | nil => rfl
  | cons r t ih => simp [assignIds, stripId, ih]

theorem assignIds_length (n : Nat) (l : List Rule) :
    (assignIds n l).length = l.length := by
  have h := congrArg List.length (assignIds_map_id n l)
  rwa [List.length_map, List.length_range'] at h

/-- C7 as stated is refuted: `Program::from` does not deduplicate.  Feeding
the same rule twice yields a program whose rule list still has both copies
(with distinct ids but identical head and body), where deduplication would
keep one. -/
theorem program_fromRules_keeps_duplicates :
    (Program.fromRules [tcRule1, tcRule1]).inner.length = 2 ∧
    (Program.fromRules [tcRule1, tcRule1]).inner.map stripId =
      [stripId tcRule1, stripId tcRule1] := by
  refine ⟨by decide, by decide⟩

/-- C7 corrected: for every vector of rules, `Program::from` returns a
program whose rule list is sorted by the derived rule order and whose ids are
the dense integers `0..n-1` assigned by position in the sorted order at
construction time; the rules themselves are kept unchanged up to ids (a
permutation of the input, duplicates included — there is no
deduplication). -/
theorem program_fromRules_sorts_and_assigns_dense_ids (value : List Rule) :
    (Program.fromRules value).inner.Sorted ruleLe ∧
    (Program.fromRules value).inner.map Rule.id =
      List.range value.length ∧
    (Program.fromRules value).inner.length = value.length ∧
    ((Program.fromRules value).inner.map stripId).Perm
      (value.map stripId) := by
  have hsorted := List.sorted_insertionSort ruleLe value
  have hperm := List.perm_insertionSort ruleLe value
  have hlen : (List.insertionSort ruleLe value).length = value.length :=
    hperm.length_eq
  refine ⟨?_, ?_, ?_, ?_⟩
  · exact assignIds_sorted 0 _ (hsorted.imp (fun h => ruleLe_imp_hbLe h))
  · rw [Program.fromRules, assignIds_map_id, hlen, List.range_eq_range']
  · rw [Program.fromRules, assignIds_length, hlen]
  · rw [Program.fromRules, assignIds_map_stripId]
    exact hperm.map stripId

theorem mem_variableNames {v : String} :
    ∀ ts : List Term, v ∈ variableNames ts ↔ Term.Variable v ∈ ts := by
  intro ts
  unfold variableNames
  rw [List.mem_filterMap]
  constructor
  · rintro ⟨t, ht, hf⟩
    cases t with
    | Variable w =>
      simp only [Option.some.injEq] at hf
      rwa [hf] at ht
    | Constant c => cases hf
    | Skolemizer f => cases hf
  · intro ht
    exact ⟨Term.Variable v, ht, rfl⟩

/-- C8 as stated is refuted: constructing a runtime from a program whose rule
head references a variable absent from the body does NOT fail —
`MicroRuntime::new` returns `Self` (it has no error channel), performs no
head-safety validation, and the resulting runtime is silently usable (safe,
queries succeed).  The head-safety check lives in the rule macro parser
instead, which rejects exactly that rule. -/
theorem runtime_new_accepts_unbound_head_program :
    (MicroRuntime.new interp0 unboundHeadProgram).safe = true ∧
    (MicroRuntime.new interp0 unboundHeadProgram).query
        { matchers := [Matcher.Any, Matcher.Any], symbol := "q" } =
      Except.ok [] ∧
    headCheckRule unboundHeadRule.head unboundHeadRule.body =
      Except.error "variable y not found in the body" :=
  ⟨rfl, rfl, rfl⟩

/-- C8 corrected: the head-safety check is enforced at rule-authoring time by
the `rule!`/`program!` macro parser, not at runtime construction: the parser
accepts a rule exactly when every variable of its head occurs as a variable
of some body atom, and errors otherwise; `MicroRuntime::new` itself is total
and never validates head safety. -/
theorem head_safety_checked_at_authoring_time (head : Atom)
    (body : List Atom) :
    headCheckRule head body = Except.ok () ↔
      ∀ v, Term.Variable v ∈ head.terms →
        ∃ a ∈ body, Term.Variable v ∈ a.terms := by
  unfold headCheckRule
  cases hf : (variableNames head.terms).find?
      (fun v => decide (¬ v ∈ body.flatMap (fun a => variableNames a.terms)))
  with
  | some v =>
    constructor
    · intro h
      exact Except.noConfusion h
    · intro hall
      exfalso
      have hv := List.find?_some hf
      have hvmem := List.mem_of_find?_eq_some hf
      rw [decide_eq_true_eq] at hv
      obtain ⟨a, ha, hva⟩ := hall v ((mem_variableNames head.terms).1 hvmem)
      exact hv (List.mem_flatMap.2 ⟨a, ha, (mem_variableNames a.terms).2 hva⟩)
  | none =>
    constructor
    · intro _ v hv
      have hnone := List.find?_eq_none.1 hf v
        ((mem_variableNames head.terms).2 hv)
      rw [decide_eq_true_eq, not_not] at hnone
      obtain ⟨a, ha, hva⟩ := List.mem_flatMap.1 hnone
      exact ⟨a, ha, (mem_variableNames a.terms).1 hva⟩
    · intro _
      rfl

theorem matcherAccepts_iff (m : Matcher) (v : TypedValue) :
    matcherAccepts m v = true ↔ matcherSpec m v := by
  cases m with
  | Any => simp [matcherAccepts, matcherSpec]
  | Constant c =>
    simp only [matcherAccepts, matcherSpec, decide_eq_true_eq]
    exact eq_comm

theorem zip_all_accepts_iff :
    ∀ (ms : List Matcher) (vs : List TypedValue),
      ((ms.zip vs).all fun mv => matcherAccepts mv.1 mv.2) = true ↔
        ∀ i (hm : i < ms.length) (hv : i < vs.length),
          matcherSpec (ms.get ⟨i, hm⟩) (vs.get ⟨i, hv⟩) := by
  intro ms
  induction ms with
  | nil =>
    intro vs
    constructor
    · intro _ i hm
      exact absurd hm (Nat.not_lt_zero i)
    · intro _
      rfl
  | cons m ms ih =>
    intro vs
    cases vs with
    | nil =>
      constructor
      · intro _ i hm hv
        exact absurd hv (Nat.not_lt_zero i)
      · intro _
        rfl
    | cons v vs2 =>
      rw [List.zip_cons_cons, List.all_cons, Bool.and_eq_true, ih vs2,
        matcherAccepts_iff]
      constructor
      · rintro ⟨h0, hrest⟩ i hm hv
        match i with
        | 0 => exact h0
        | i + 1 =>
          exact hrest i (Nat.lt_of_succ_lt_succ hm)
            (Nat.lt_of_succ_lt_succ hv)
      · intro h
        refine ⟨h 0 (Nat.succ_pos _) (Nat.succ_pos _), fun i hm hv => ?_⟩
        exact h (i + 1) (Nat.succ_lt_succ hm) (Nat.succ_lt_succ hv)

theorem pattern_match_iff (q : Query) (f : AnonymousGroundAtom) :
    pattern_match q f = true ↔
      f.length = q.matchers.length ∧
      ∀ i (hm : i < q.matchers.length) (hf : i < f.length),
        matcherSpec (q.matchers.get ⟨i, hm⟩) (f.get ⟨i, hf⟩) := by
  unfold pattern_match
  rw [Bool.and_eq_true, decide_eq_true_eq, zip_all_accepts_iff]
  constructor
  · rintro ⟨h1, h2⟩
    exact ⟨h1.symm, h2⟩
  · rintro ⟨h1, h2⟩
    exact ⟨h1.symm, h2⟩

/-- C9: whenever `safe()` holds, `query(q)` returns exactly those facts of
the processed relation named `q.symbol` for which every position matches the
query's matchers — `Any` accepts any value, `Constant c` accepts exactly the
value `c` (positions correspond one to one, so the fact has the query's
arity); in particular, a query with a constant in position 0 and a wildcard
in position 1 returns exactly the stored pairs whose first element equals
that constant. -/
theorem query_returns_pattern_matches (rt : MicroRuntime) (q : Query)
    (h : rt.safe = true) :
    ∃ l, rt.query q = Except.ok l ∧
      (∀ f, f ∈ l ↔
        f ∈ rt.processed.getRelation q.symbol ∧
        f.length = q.matchers.length ∧
        ∀ i (hm : i < q.matchers.length) (hf : i < f.length),
          matcherSpec (q.matchers.get ⟨i, hm⟩) (f.get ⟨i, hf⟩)) ∧
      (∀ c, q.matchers = [Matcher.Constant c, Matcher.Any] →
        ∀ f, f ∈ l ↔
          f ∈ rt.processed.getRelation q.symbol ∧ ∃ y, f = [c, y]) := by
  refine ⟨(rt.processed.getRelation q.symbol).filter
    (fun fact => pattern_match q fact), ?_, ?_, ?_⟩
  · unfold MicroRuntime.query
    rw [h]
    rfl
  · intro f
    rw [List.mem_filter, pattern_match_iff]
  · intro c hc f
    rw [List.mem_filter, pattern_match_iff, hc]
    constructor
    · rintro ⟨hmem, hlen, hpos⟩
      match f, hlen with
      | [f0, f1], _ =>
        have h0 := hpos 0 (by simp) (by simp)
        simp only [List.get] at h0
        rw [matcherSpec] at h0
        exact ⟨hmem, f1, by rw [h0]⟩
    · rintro ⟨hmem, y, rfl⟩
      refine ⟨hmem, rfl, fun i hm hf => ?_⟩
      match i, hm with
      | 0, _ => exact rfl
      | 1, _ => exact trivial

/-- Witness for C9: the theorem applies to a freshly constructed (safe)
runtime, yielding a succeeding query. -/
theorem query_pattern_witness :
    ∃ l, (MicroRuntime.new interp0 tcProgram).query tcFromAQuery =
      Except.ok l :=
  (query_returns_pattern_matches (MicroRuntime.new interp0 tcProgram)
    tcFromAQuery rfl).elim (fun l hl => ⟨l, hl.1⟩)

end ActLogically
